import Mathlib

/-!
# Verification of the cvmfs upload spooler (`cvmfs/upload.cc`)

A shallow embedding of the concurrent job dispatcher ("Spooler") of the
cvmfs upload engine, together with its configuration parser
(`Spooler::SpoolerDefinition`), and proofs of the specified properties.

Strings handled by the parser are embedded as `List Char`; the splitting
helper `SplitString` lives outside the translated file, so it is modelled
from the specification.  The concurrent dispatcher is embedded as a
labelled transition system whose atomic steps are the critical sections of
`Spooler::Schedule`, `Spooler::AcquireJob`, `Spooler::EndOfTransaction`,
`Spooler::JobFinishedCallback` and the callback-registration calls.
Blocking on a condition variable is rendered as a disabled transition
(`OpResult.blocked`); a failed `assert` is `OpResult.assertionFailed` and
likewise produces no successor state.
-/

namespace Upload

/-- Modelled from the spec: `SplitString(str, delim)` with no chunk limit
splits the string at every occurrence of the delimiter.  The helper itself
is not part of the translated source file (`upload.cc` only calls it); the
spec describes it as splitting "on the top-level separator". -/
def splitString (delim : Char) : List Char → List (List Char)
  | [] => [[]]
  | c :: rest =>
    if c = delim then
      [] :: splitString delim rest
    else
      match splitString delim rest with
      | [] => [[c]]
      | r :: rs => (c :: r) :: rs

/-- Split a character list at the first occurrence of the delimiter,
returning the part before and the part after; `none` when the delimiter
does not occur. -/
def splitFirst (delim : Char) : List Char → Option (List Char × List Char)
  | [] => none
  | c :: rest =>
    if c = delim then
      some ([], rest)
    else
      match splitFirst delim rest with
      | none => none
      | some (pre, post) => some (c :: pre, post)

/-- Modelled from the spec: `SplitString(str, delim, max_chunks)` produces
at most `max_chunks` chunks; the final chunk keeps the rest of the string,
delimiters included.  With `max_chunks = 2` the string is split only at the
first delimiter ("Split the first component on its own separator into
exactly two parts (driver name, description)"). -/
def splitStringMax (delim : Char) : Nat → List Char → List (List Char)
  | 0, s => [s]
  | 1, s => [s]
  | n + 2, s =>
    match splitFirst delim s with
    | none => [s]
    | some (pre, post) => pre :: splitStringMax delim (n + 1) post

/-- The spooler driver selected by the configuration string
(`SpoolerDefinition::driver_type`). -/
inductive DriverType where
  | Local
  | Riak
deriving DecidableEq, Repr

/-- `Spooler::SpoolerDefinition`: the parsed, immutable configuration.  The
C++ object leaves `driver_type` and the string fields uninitialized when
parsing fails; those are rendered as `none` / `[]` here, guarded by
`valid_`. -/
structure SpoolerDefinition where
  driver_type : Option DriverType
  spooler_description : List Char
  paths_out_pipe : List Char
  digests_in_pipe : List Char
  max_pending_jobs : Nat
  valid_ : Bool
deriving DecidableEq, Repr

/-- `Spooler::SpoolerDefinition::SpoolerDefinition(definition_string,
max_pending_jobs)`: split on ',' and require exactly three components;
split the first component on ':' into at most two chunks and require
exactly two; recognize the driver name `local` or `riak`; on success record
the description and the two pipe paths and set `valid_`. -/
def mkSpoolerDefinition (definition_string : List Char)
    (max_pending_jobs : Nat) : SpoolerDefinition :=
  let invalid : SpoolerDefinition :=
    ⟨none, [], [], [], max_pending_jobs, false⟩
  match splitString ',' definition_string with
  | [c0, c1, c2] =>
    match splitStringMax ':' 2 c0 with
    | [u0, u1] =>
      if u0 = "local".data then
        ⟨some DriverType.Local, u1, c1, c2, max_pending_jobs, true⟩
      else if u0 = "riak".data then
        ⟨some DriverType.Riak, u1, c1, c2, max_pending_jobs, true⟩
      else
        invalid
    | _ => invalid
  | _ => invalid

/-- `SpoolerDefinition::IsValid`. -/
def SpoolerDefinition.IsValid (sd : SpoolerDefinition) : Bool := sd.valid_

/-- A job handed to `Spooler::Schedule`: `StorageCopyJob`,
`StorageCompressionJob` or `DeathSentenceJob`.  Payload fields are the
constructor arguments in `Spooler::Copy`, `Spooler::Process` and
`Spooler::EndOfTransaction`. -/
inductive Job where
  | copyJob (local_path remote_path : String) (move : Bool)
  | compressionJob (local_path remote_dir file_suffix : String) (move : Bool)
  | deathSentenceJob
deriving DecidableEq, Repr

/-- `Job::IsDeathSentenceJob`. -/
def Job.IsDeathSentenceJob : Job → Bool
  | .deathSentenceJob => true
  | _ => false

/-- `Job::IsCompressionJob`. -/
def Job.IsCompressionJob : Job → Bool
  | .compressionJob .. => true
  | _ => false

/-- `Job::IsCopyJob`. -/
def Job.IsCopyJob : Job → Bool
  | .copyJob .. => true
  | _ => false

/-- The outcome fields a worker writes into a job before reporting it:
`successful`, `return_code`, and (meaningful for compression jobs only)
`content_hash`. -/
structure JobOutcome where
  successful : Bool
  return_code : Int
  content_hash : String
deriving DecidableEq, Repr

/-- One invocation of the registered external callback
(`Spooler::InvokeExternalCallback`): compression jobs pass
(local_path, return_code, content_hash); copy jobs pass
(local_path, return_code). -/
inductive CallbackCall where
  | compression (local_path : String) (return_code : Int) (content_hash : String)
  | copy (local_path : String) (return_code : Int)
deriving DecidableEq, Repr

/-- The shared state of a `Spooler` instance.  Operational fields mirror
the C++ members (`job_queue_`, `jobs_pending_`, `jobs_failed_`,
`death_sentences_executed_`, `transaction_ends_`, `callback_`, plus a flag
recording that `TearDown` ran).  `eotRemaining` is the loop counter of an
`EndOfTransaction` call in progress, and `activeWorkers` the number of
worker threads that have not yet consumed a death sentence (the worker loop
is modelled from the spec: each worker exits after reporting exactly one
DeathSentenceJob).  The `enqueuedHist`, `dequeuedHist` and `finishedHist`
fields are history (ghost) variables recording the order of scheduled,
acquired and reported jobs; they do not influence any operational field. -/
structure SpoolerState where
  maxPendingJobs : Nat
  numWorkers : Nat
  move : Bool
  jobQueue : List Job
  jobsPending : Int
  jobsFailed : Int
  deathSentencesExecuted : Nat
  transactionEnds : Bool
  eotRemaining : Option Nat
  callbackSet : Bool
  tornDown : Bool
  activeWorkers : Nat
  executing : List Job
  enqueuedHist : List Job
  dequeuedHist : List Job
  finishedHist : List Job
deriving DecidableEq, Repr

/-- Result of attempting one atomic operation: the operation completes with
a new state, or the calling thread blocks on a condition variable (no state
change yet), or an `assert` fires and the process aborts. -/
inductive OpResult where
  | ok (s : SpoolerState)
  | blocked
  | assertionFailed
deriving DecidableEq, Repr

/-- The state of a freshly constructed and initialized `Spooler`:
empty queue, zeroed counters, `transaction_ends_ = false`, no callback,
`numWorkers` worker threads spawned and idle. -/
def initState (maxJobs numWorkers : Nat) : SpoolerState :=
  { maxPendingJobs := maxJobs
    numWorkers := numWorkers
    move := false
    jobQueue := []
    jobsPending := 0
    jobsFailed := 0
    deathSentencesExecuted := 0
    transactionEnds := false
    eotRemaining := none
    callbackSet := false
    tornDown := false
    activeWorkers := numWorkers
    executing := []
    enqueuedHist := []
    dequeuedHist := []
    finishedHist := [] }

/-- `Spooler::Schedule(job)`: under the queue mutex, while
`job_queue_.size() >= max_pending_jobs` the producer waits on the
"not full" condition; otherwise the job is pushed at the back and
`jobs_pending_` is incremented. -/
def schedule (s : SpoolerState) (job : Job) : OpResult :=
  if s.maxPendingJobs ≤ s.jobQueue.length then
    OpResult.blocked
  else
    OpResult.ok
      { s with
        jobQueue := s.jobQueue ++ [job]
        jobsPending := s.jobsPending + 1
        enqueuedHist := s.enqueuedHist ++ [job] }

/-- `Spooler::Copy(local_path, remote_path)`: schedules a
`StorageCopyJob` carrying the spooler's move flag.  There is no check of
`transaction_ends_` here. -/
def copy (s : SpoolerState) (local_path remote_path : String) : OpResult :=
  schedule s (Job.copyJob local_path remote_path s.move)

/-- `Spooler::Process(local_path, remote_dir, file_suffix)`: schedules a
`StorageCompressionJob`.  There is no check of `transaction_ends_` here. -/
def process (s : SpoolerState) (local_path remote_dir file_suffix : String) :
    OpResult :=
  schedule s (Job.compressionJob local_path remote_dir file_suffix s.move)

/-- Entry of `Spooler::EndOfTransaction()`: `assert(!transaction_ends_)`,
then begin the loop that schedules one `DeathSentenceJob` per worker
thread.  The loop body and the final flag write are separate atomic steps
(`endOfTransactionStep`), because each `Schedule` call acquires and
releases the queue mutex on its own. -/
def endOfTransactionBegin (s : SpoolerState) : OpResult :=
  if s.transactionEnds then
    OpResult.assertionFailed
  else if s.eotRemaining.isSome then
    OpResult.blocked
  else
    OpResult.ok { s with eotRemaining := some s.numWorkers }

/-- One step of the `EndOfTransaction` loop: while iterations remain,
schedule a `DeathSentenceJob` (blocking when the queue is full); after the
last iteration set `transaction_ends_ = true`. -/
def endOfTransactionStep (s : SpoolerState) : OpResult :=
  match s.eotRemaining with
  | none => OpResult.blocked
  | some 0 =>
    OpResult.ok { s with transactionEnds := true, eotRemaining := none }
  | some (n + 1) =>
    match schedule s Job.deathSentenceJob with
    | OpResult.ok s' => OpResult.ok { s' with eotRemaining := some n }
    | r => r

/-- `Spooler::AcquireJob()`: under the queue mutex, while the queue is
empty the worker waits on "not empty" (`none` here); otherwise the front
job is removed and returned.  (The "not full" signal sent below the
hysteresis threshold carries no state and is not modelled.) -/
def acquireJob (s : SpoolerState) : Option (Job × SpoolerState) :=
  match s.jobQueue with
  | [] => none
  | job :: rest =>
    some (job,
      { s with
        jobQueue := rest
        dequeuedHist := s.dequeuedHist ++ [job]
        executing := s.executing ++ [job] })

/-- `Spooler::InvokeExternalCallback(job)`: nothing when no callback is
registered; otherwise dispatch on the job's runtime variant —
compression jobs report (local_path, return_code, content_hash), copy jobs
report (local_path, return_code), death sentences report nothing. -/
def invokeExternalCallback (s : SpoolerState) (job : Job) (o : JobOutcome) :
    List CallbackCall :=
  if s.callbackSet = false then
    []
  else
    match job with
    | Job.compressionJob lp _ _ _ =>
      [CallbackCall.compression lp o.return_code o.content_hash]
    | Job.copyJob lp _ _ =>
      [CallbackCall.copy lp o.return_code]
    | Job.deathSentenceJob => []

/-- `Spooler::JobFinishedCallback(job)`: increment `jobs_failed_` when the
job was unsuccessful; invoke the external callback; on a death sentence,
increment `death_sentences_executed_` and run `TearDown` exactly when it
reaches the worker count; finally decrement `jobs_pending_` (the "all
done" signal at zero carries no state).  Returns the successor state and
the list of external callback invocations made. -/
def jobFinishedCallback (s : SpoolerState) (job : Job) (o : JobOutcome) :
    SpoolerState × List CallbackCall :=
  let s1 :=
    if o.successful then s else { s with jobsFailed := s.jobsFailed + 1 }
  let calls := invokeExternalCallback s1 job o
  let s2 :=
    if job.IsDeathSentenceJob then
      let de := s1.deathSentencesExecuted + 1
      { s1 with
        deathSentencesExecuted := de
        tornDown := s1.tornDown || decide (de = s1.numWorkers) }
    else s1
  ({ s2 with jobsPending := s2.jobsPending - 1 }, calls)

/-- A worker thread finishes the job at position `i` of the in-execution
multiset with outcome `o` and reports it via `JobFinishedCallback`.
Modelled from the spec: the worker that reported a death sentence exits its
loop, so `activeWorkers` drops by one there. -/
def finishStep (s : SpoolerState) (i : Nat) (o : JobOutcome) : SpoolerState :=
  match s.executing[i]? with
  | none => s
  | some job =>
    let base :=
      { s with
        executing := s.executing.eraseIdx i
        finishedHist := s.finishedHist ++ [job]
        activeWorkers :=
          if job.IsDeathSentenceJob then s.activeWorkers - 1
          else s.activeWorkers }
    (jobFinishedCallback base job o).1

/-- `Spooler::WaitForUpload()`: under the queue mutex, while
`jobs_pending_ > 0` the caller waits on "all done"; otherwise it returns
without changing any state. -/
def waitForUpload (s : SpoolerState) : OpResult :=
  if 0 < s.jobsPending then OpResult.blocked else OpResult.ok s

/-- `Spooler::SetCallback(callback_object)`: `assert(callback_ == NULL)`,
then store the callback. -/
def setCallback (s : SpoolerState) : OpResult :=
  if s.callbackSet then
    OpResult.assertionFailed
  else
    OpResult.ok { s with callbackSet := true }

/-- `Spooler::UnsetCallback()`: delete and clear the callback. -/
def unsetCallback (s : SpoolerState) : OpResult :=
  OpResult.ok { s with callbackSet := false }

/-- One atomic transition of the dispatcher under an arbitrary
interleaving of producer threads (Copy / Process / EndOfTransaction
micro-steps), worker threads (acquire, finish) and callback registration.
An acquire step requires an idle worker (modelled from the spec's worker
loop); a finish step reports any job currently in execution. -/
inductive Step : SpoolerState → SpoolerState → Prop where
  | copy (lp rp : String) {s s' : SpoolerState}
      (h : copy s lp rp = OpResult.ok s') : Step s s'
  | process (lp rd sfx : String) {s s' : SpoolerState}
      (h : process s lp rd sfx = OpResult.ok s') : Step s s'
  | eotBegin {s s' : SpoolerState}
      (h : endOfTransactionBegin s = OpResult.ok s') : Step s s'
  | eotStep {s s' : SpoolerState}
      (h : endOfTransactionStep s = OpResult.ok s') : Step s s'
  | acquire {s s' : SpoolerState} (job : Job)
      (hw : s.executing.length < s.activeWorkers)
      (h : acquireJob s = some (job, s')) : Step s s'
  | finish (i : Nat) (o : JobOutcome) {s : SpoolerState}
      (hi : i < s.executing.length) : Step s (finishStep s i o)
  | setCb {s s' : SpoolerState}
      (h : setCallback s = OpResult.ok s') : Step s s'
  | unsetCb {s s' : SpoolerState}
      (h : unsetCallback s = OpResult.ok s') : Step s s'

/-- States reachable from a freshly initialized spooler with queue bound
`maxJobs` and `numWorkers` worker threads. -/
inductive Reachable (maxJobs numWorkers : Nat) : SpoolerState → Prop where
  | init : Reachable maxJobs numWorkers (initState maxJobs numWorkers)
  | step {s s' : SpoolerState} :
      Reachable maxJobs numWorkers s → Step s s' →
      Reachable maxJobs numWorkers s'

/-- Number of `DeathSentenceJob`s in a list of jobs. -/
def deathCount (l : List Job) : Nat :=
  l.countP (fun j => j.IsDeathSentenceJob)

/-- `Spooler::Construct(spooler_description, max_pending_jobs)`: parse the
definition string, `assert` its validity, build the driver-specific
spooler, initialize it; when `Initialize` fails the partially built object
is deleted and `NULL` is returned.  Whether `Initialize` succeeds depends
on the environment (mutex/condition allocation, thread spawn) and is
passed in as `initializeOk`. -/
inductive ConstructResult where
  | assertionFailed
  | null
  | spooler (sd : SpoolerDefinition)
deriving DecidableEq, Repr

def Construct (spooler_description : List Char) (max_pending_jobs : Nat)
    (initializeOk : Bool) : ConstructResult :=
  let sd := mkSpoolerDefinition spooler_description max_pending_jobs
  if sd.IsValid = false then
    ConstructResult.assertionFailed
  else if initializeOk then
    ConstructResult.spooler sd
  else
    ConstructResult.null

end Upload

namespace Upload

theorem deathCount_append (l₁ l₂ : List Job) :
    deathCount (l₁ ++ l₂) = deathCount l₁ + deathCount l₂ :=
  List.countP_append _ _ _

theorem deathCount_perm {l₁ l₂ : List Job} (h : l₁.Perm l₂) :
    deathCount l₁ = deathCount l₂ :=
  h.countP_eq _

theorem perm_getElem_cons_eraseIdx {α : Type _} {l : List α} {i : Nat}
    (h : i < l.length) : l.Perm (l[i] :: l.eraseIdx i) := by
  induction l generalizing i with
  | nil => simp at h
  | cons a t ih =>
    cases i with
    | zero => simp
    | succ i =>
      have h' : i < t.length := by simpa using h
      simpa using ((ih h').cons a).trans (List.Perm.swap _ _ _)

/-- The inductive invariant of the dispatcher's transition system:
queue capacity, FIFO history decomposition, conservation of dequeued jobs
between in-execution and reported, the pending counter as submitted minus
reported, death-sentence accounting, the teardown condition, and the
worker-pool accounting. -/
structure Inv (M K : Nat) (s : SpoolerState) : Prop where
  hM : s.maxPendingJobs = M
  hK : s.numWorkers = K
  cap : s.jobQueue.length ≤ M
  fifo : s.enqueuedHist = s.dequeuedHist ++ s.jobQueue
  conserve : s.dequeuedHist.Perm (s.finishedHist ++ s.executing)
  pending : s.jobsPending =
    (s.enqueuedHist.length : Int) - (s.finishedHist.length : Int)
  deaths : s.deathSentencesExecuted = deathCount s.finishedHist
  eot : match s.eotRemaining with
    | some n =>
        s.transactionEnds = false ∧ n ≤ K ∧
          deathCount s.enqueuedHist + n = K
    | none =>
        deathCount s.enqueuedHist = (if s.transactionEnds then K else 0)
  torn : s.tornDown = true ↔ (K ≠ 0 ∧ s.deathSentencesExecuted = K)
  workers : s.activeWorkers + s.deathSentencesExecuted = K

theorem inv_init (M K : Nat) : Inv M K (initState M K) := by
  refine ⟨rfl, rfl, by simp [initState], by simp [initState],
    by simp [initState], by simp [initState],
    by simp [initState, deathCount], by simp [initState, deathCount],
    ?_, by simp [initState]⟩
  simp only [initState]
  constructor
  · intro h
    simp at h
  · rintro ⟨hK, h0⟩
    omega

theorem schedule_ok {s s' : SpoolerState} {j : Job}
    (h : schedule s j = OpResult.ok s') :
    s.jobQueue.length < s.maxPendingJobs ∧
      s' = { s with
              jobQueue := s.jobQueue ++ [j]
              jobsPending := s.jobsPending + 1
              enqueuedHist := s.enqueuedHist ++ [j] } := by
  unfold schedule at h
  split at h
  · exact absurd h (by simp)
  · refine ⟨by omega, ?_⟩
    cases h
    rfl

/-- How the invariant survives a successful `Schedule` of a
non-death-sentence job (the `Copy` and `Process` cases). -/
theorem inv_schedule {M K : Nat} {s s' : SpoolerState} {j : Job}
    (inv : Inv M K s) (hj : j.IsDeathSentenceJob = false)
    (h : schedule s j = OpResult.ok s') : Inv M K s' := by
  obtain ⟨hlt, rfl⟩ := schedule_ok h
  obtain ⟨hM, hK, cap, fifo, conserve, pending, deaths, eot, torn, workers⟩ := inv
  have hdc : deathCount (s.enqueuedHist ++ [j]) = deathCount s.enqueuedHist := by
    simp [deathCount_append, deathCount, List.countP_cons, hj]
  refine ⟨hM, hK, ?_, ?_, conserve, ?_, deaths, ?_, torn, workers⟩
  · simp only [List.length_append, List.length_singleton]
    omega
  · simp only [fifo, List.append_assoc]
  · simp only [pending, List.length_append, List.length_singleton]
    push_cast
    omega
  · simp only [hdc]
    exact eot

end Upload

namespace Upload

theorem jobFinishedCallback_fst (s : SpoolerState) (job : Job) (o : JobOutcome) :
    (jobFinishedCallback s job o).1 =
      { s with
        jobsFailed := s.jobsFailed + (if o.successful then 0 else 1)
        deathSentencesExecuted := s.deathSentencesExecuted +
          (if job.IsDeathSentenceJob then 1 else 0)
        tornDown := s.tornDown ||
          (job.IsDeathSentenceJob &&
            decide (s.deathSentencesExecuted + 1 = s.numWorkers))
        jobsPending := s.jobsPending - 1 } := by
  unfold jobFinishedCallback
  by_cases hsucc : o.successful <;>
    by_cases hds : job.IsDeathSentenceJob <;>
      simp [hsucc, hds]

theorem finishStep_eq {s : SpoolerState} {i : Nat}
    (hi : i < s.executing.length) (o : JobOutcome) :
    finishStep s i o =
      { s with
        executing := s.executing.eraseIdx i
        finishedHist := s.finishedHist ++ [s.executing[i]]
        activeWorkers :=
          if (s.executing[i]).IsDeathSentenceJob then s.activeWorkers - 1
          else s.activeWorkers
        jobsFailed := s.jobsFailed + (if o.successful then 0 else 1)
        deathSentencesExecuted := s.deathSentencesExecuted +
          (if (s.executing[i]).IsDeathSentenceJob then 1 else 0)
        tornDown := s.tornDown ||
          ((s.executing[i]).IsDeathSentenceJob &&
            decide (s.deathSentencesExecuted + 1 = s.numWorkers))
        jobsPending := s.jobsPending - 1 } := by
  unfold finishStep
  rw [List.getElem?_eq_getElem hi]
  simp only [jobFinishedCallback_fst]

theorem inv_eotBegin {M K : Nat} {s s' : SpoolerState}
    (inv : Inv M K s) (h : endOfTransactionBegin s = OpResult.ok s') :
    Inv M K s' := by
  obtain ⟨hM, hK, cap, fifo, conserve, pending, deaths, eot, torn, workers⟩ := inv
  unfold endOfTransactionBegin at h
  split at h
  · exact absurd h (by simp)
  · split at h
    · exact absurd h (by simp)
    · cases h
      rename_i htx hrem
      have hnone : s.eotRemaining = none := by
        cases hr : s.eotRemaining with
        | none => rfl
        | some n => rw [hr] at hrem; simp at hrem
      simp only [Bool.not_eq_true] at htx
      have heot0 : deathCount s.enqueuedHist = 0 := by
        rw [hnone] at eot
        rw [htx] at eot
        simpa using eot
      refine ⟨hM, hK, cap, fifo, conserve, pending, deaths, ?_, torn, workers⟩
      exact ⟨htx, by rw [hK], by simp [hK, heot0]⟩

theorem inv_eotStep {M K : Nat} {s s' : SpoolerState}
    (inv : Inv M K s) (h : endOfTransactionStep s = OpResult.ok s') :
    Inv M K s' := by
  obtain ⟨hM, hK, cap, fifo, conserve, pending, deaths, eot, torn, workers⟩ := inv
  unfold endOfTransactionStep at h
  cases hrem : s.eotRemaining with
  | none => rw [hrem] at h; exact absurd h (by simp)
  | some n =>
    rw [hrem] at h eot
    cases n with
    | zero =>
      simp only at h
      cases h
      refine ⟨hM, hK, cap, fifo, conserve, pending, deaths, ?_, torn, workers⟩
      simp only [if_true]
      omega
    | succ m =>
      simp only at h
      cases hsch : schedule s Job.deathSentenceJob with
      | ok s₁ =>
        rw [hsch] at h
        cases h
        obtain ⟨hlt, rfl⟩ := schedule_ok hsch
        obtain ⟨htx, hle, hdc⟩ := eot
        have hdc' : deathCount (s.enqueuedHist ++ [Job.deathSentenceJob])
            = deathCount s.enqueuedHist + 1 := by
          simp [deathCount_append, deathCount, Job.IsDeathSentenceJob]
        refine ⟨hM, hK, ?_, ?_, conserve, ?_, deaths, ?_, torn, workers⟩
        · simp only [List.length_append, List.length_singleton]
          omega
        · simp only [fifo, List.append_assoc]
        · simp only [pending, List.length_append, List.length_singleton]
          push_cast
          omega
        · simp only [hdc']
          exact ⟨htx, by omega, by omega⟩
      | blocked => rw [hsch] at h; exact absurd h (by simp)
      | assertionFailed => rw [hsch] at h; exact absurd h (by simp)

theorem inv_acquire {M K : Nat} {s s' : SpoolerState} {job : Job}
    (inv : Inv M K s) (h : acquireJob s = some (job, s')) :
    Inv M K s' := by
  obtain ⟨hM, hK, cap, fifo, conserve, pending, deaths, eot, torn, workers⟩ := inv
  unfold acquireJob at h
  cases hq : s.jobQueue with
  | nil => rw [hq] at h; exact absurd h (by simp)
  | cons j rest =>
    rw [hq] at h
    simp only [Option.some.injEq, Prod.mk.injEq] at h
    obtain ⟨hj, hs'⟩ := h
    subst hs'
    refine ⟨hM, hK, ?_, ?_, ?_, pending, deaths, ?_, torn, workers⟩
    · rw [hq] at cap
      simp at cap
      show rest.length ≤ M
      omega
    · simp only [fifo, hq]
      simp [List.append_assoc]
    · refine (conserve.append_right [j]).trans ?_
      rw [List.append_assoc]
    · exact eot

end Upload

namespace Upload

theorem inv_finish {M K : Nat} {s : SpoolerState} (i : Nat) (o : JobOutcome)
    (inv : Inv M K s) (hi : i < s.executing.length) :
    Inv M K (finishStep s i o) := by
  obtain ⟨hM, hK, cap, fifo, conserve, pending, deaths, eot, torn, workers⟩ := inv
  have hperm : s.executing.Perm (s.executing[i] :: s.executing.eraseIdx i) :=
    perm_getElem_cons_eraseIdx hi
  have hdeq : deathCount s.dequeuedHist
      = deathCount s.finishedHist + deathCount s.executing := by
    rw [deathCount_perm conserve, deathCount_append]
  have henqc : deathCount s.enqueuedHist
      = deathCount s.dequeuedHist + deathCount s.jobQueue := by
    rw [fifo, deathCount_append]
  have henq_le : deathCount s.enqueuedHist ≤ K := by
    cases hrem : s.eotRemaining with
    | none =>
      simp only [hrem] at eot
      rcases htx : s.transactionEnds
      · simp [htx] at eot
        omega
      · simp [htx] at eot
        omega
    | some n =>
      simp only [hrem] at eot
      obtain ⟨-, -, h3⟩ := eot
      omega
  have hconserve' : s.dequeuedHist.Perm
      ((s.finishedHist ++ [s.executing[i]]) ++ s.executing.eraseIdx i) := by
    refine conserve.trans ?_
    have heq : (s.finishedHist ++ [s.executing[i]]) ++ s.executing.eraseIdx i
        = s.finishedHist ++ (s.executing[i] :: s.executing.eraseIdx i) := by
      simp
    rw [heq]
    exact hperm.append_left s.finishedHist
  rw [finishStep_eq hi o]
  by_cases hds : (s.executing[i]).IsDeathSentenceJob
  · have hexecd : 1 ≤ deathCount s.executing := by
      rw [deathCount_perm hperm]
      unfold deathCount
      rw [List.countP_cons]
      simp [hds]
    have hde1 : s.deathSentencesExecuted + 1 ≤ K := by omega
    have htfalse : s.tornDown = false := by
      cases htd : s.tornDown with
      | false => rfl
      | true =>
        obtain ⟨hK0, hdeK⟩ := torn.mp htd
        omega
    refine ⟨hM, hK, cap, fifo, hconserve', ?_, ?_, eot, ?_, ?_⟩
    · show s.jobsPending - 1 =
        ((s.enqueuedHist.length : Int) -
          ((s.finishedHist ++ [s.executing[i]]).length : Int))
      simp only [List.length_append, List.length_singleton]
      rw [pending]
      push_cast
      omega
    · show s.deathSentencesExecuted + (if (s.executing[i]).IsDeathSentenceJob then 1 else 0)
        = deathCount (s.finishedHist ++ [s.executing[i]])
      rw [deathCount_append]
      have h1 : deathCount [s.executing[i]] = 1 := by
        unfold deathCount
        simp [hds]
      rw [h1]
      simp only [hds, if_true]
      omega
    · show (s.tornDown ||
        ((s.executing[i]).IsDeathSentenceJob &&
          decide (s.deathSentencesExecuted + 1 = s.numWorkers))) = true ↔
        (K ≠ 0 ∧ s.deathSentencesExecuted +
          (if (s.executing[i]).IsDeathSentenceJob then 1 else 0) = K)
      simp only [htfalse, hds, hK, Bool.false_or, Bool.true_and,
        decide_eq_true_eq, if_true]
      constructor
      · intro h
        exact ⟨by omega, h⟩
      · rintro ⟨-, h⟩
        exact h
    · show (if (s.executing[i]).IsDeathSentenceJob then s.activeWorkers - 1
          else s.activeWorkers) +
        (s.deathSentencesExecuted +
          (if (s.executing[i]).IsDeathSentenceJob then 1 else 0)) = K
      simp only [hds, if_true]
      omega
  · have hds' : (s.executing[i]).IsDeathSentenceJob = false := by
      simpa using hds
    refine ⟨hM, hK, cap, fifo, hconserve', ?_, ?_, eot, ?_, ?_⟩
    · show s.jobsPending - 1 =
        ((s.enqueuedHist.length : Int) -
          ((s.finishedHist ++ [s.executing[i]]).length : Int))
      simp only [List.length_append, List.length_singleton]
      rw [pending]
      push_cast
      omega
    · show s.deathSentencesExecuted + (if (s.executing[i]).IsDeathSentenceJob then 1 else 0)
        = deathCount (s.finishedHist ++ [s.executing[i]])
      rw [deathCount_append]
      have h0 : deathCount [s.executing[i]] = 0 := by
        unfold deathCount
        simp [hds']
      rw [h0]
      simp [hds']
      omega
    · show (s.tornDown ||
        ((s.executing[i]).IsDeathSentenceJob &&
          decide (s.deathSentencesExecuted + 1 = s.numWorkers))) = true ↔
        (K ≠ 0 ∧ s.deathSentencesExecuted +
          (if (s.executing[i]).IsDeathSentenceJob then 1 else 0) = K)
      simpa [hds'] using torn
    · show (if (s.executing[i]).IsDeathSentenceJob then s.activeWorkers - 1
          else s.activeWorkers) +
        (s.deathSentencesExecuted +
          (if (s.executing[i]).IsDeathSentenceJob then 1 else 0)) = K
      simpa [hds'] using workers

theorem inv_setCb {M K : Nat} {s s' : SpoolerState}
    (inv : Inv M K s) (h : setCallback s = OpResult.ok s') : Inv M K s' := by
  obtain ⟨hM, hK, cap, fifo, conserve, pending, deaths, eot, torn, workers⟩ := inv
  unfold setCallback at h
  split at h
  · exact absurd h (by simp)
  · cases h
    exact ⟨hM, hK, cap, fifo, conserve, pending, deaths, eot, torn, workers⟩

theorem inv_unsetCb {M K : Nat} {s s' : SpoolerState}
    (inv : Inv M K s) (h : unsetCallback s = OpResult.ok s') : Inv M K s' := by
  obtain ⟨hM, hK, cap, fifo, conserve, pending, deaths, eot, torn, workers⟩ := inv
  unfold unsetCallback at h
  cases h
  exact ⟨hM, hK, cap, fifo, conserve, pending, deaths, eot, torn, workers⟩

/-- The invariant is preserved by every atomic transition. -/
theorem inv_step {M K : Nat} {s s' : SpoolerState}
    (inv : Inv M K s) (h : Step s s') : Inv M K s' := by
  cases h with
  | copy lp rp h => exact inv_schedule inv (by rfl) h
  | process lp rd sfx h => exact inv_schedule inv (by rfl) h
  | eotBegin h => exact inv_eotBegin inv h
  | eotStep h => exact inv_eotStep inv h
  | acquire job hw h => exact inv_acquire inv h
  | finish i o hi => exact inv_finish i o inv hi
  | setCb h => exact inv_setCb inv h
  | unsetCb h => exact inv_unsetCb inv h

/-- Every reachable state of the dispatcher satisfies the invariant. -/
theorem reachable_inv {M K : Nat} {s : SpoolerState}
    (h : Reachable M K s) : Inv M K s := by
  induction h with
  | init => exact inv_init M K
  | step _ hstep ih => exact inv_step ih hstep

end Upload

namespace Upload

theorem splitString_no_delim {d : Char} {xs : List Char} (h : d ∉ xs) :
    splitString d xs = [xs] := by
  induction xs with
  | nil => rfl
  | cons c rest ih =>
    simp only [List.mem_cons, not_or] at h
    simp [splitString, Ne.symm h.1, ih h.2]

theorem splitString_append {d : Char} {xs ys : List Char} (h : d ∉ xs) :
    splitString d (xs ++ d :: ys) = xs :: splitString d ys := by
  induction xs with
  | nil => simp [splitString]
  | cons c rest ih =>
    simp only [List.mem_cons, not_or] at h
    simp [splitString, Ne.symm h.1, ih h.2]

theorem splitFirst_no_delim {d : Char} {xs : List Char} (h : d ∉ xs) :
    splitFirst d xs = none := by
  induction xs with
  | nil => rfl
  | cons c rest ih =>
    simp only [List.mem_cons, not_or] at h
    simp [splitFirst, Ne.symm h.1, ih h.2]

theorem splitFirst_append {d : Char} {xs ys : List Char} (h : d ∉ xs) :
    splitFirst d (xs ++ d :: ys) = some (xs, ys) := by
  induction xs with
  | nil => simp [splitFirst]
  | cons c rest ih =>
    simp only [List.mem_cons, not_or] at h
    simp [splitFirst, Ne.symm h.1, ih h.2]

theorem splitStringMax_two {d : Char} {xs ys : List Char} (h : d ∉ xs) :
    splitStringMax d 2 (xs ++ d :: ys) = [xs, ys] := by
  show splitStringMax d (0 + 2) (xs ++ d :: ys) = [xs, ys]
  unfold splitStringMax
  rw [splitFirst_append h]
  rfl

/-- A well-formed definition string (`driver:description,outPipe,inPipe`
with a recognized driver and no stray top-level separators) parses into a
valid `SpoolerDefinition` whose fields match the input.  The description
may itself contain further colons (only the first colon of the driver
component separates driver name from description). -/
theorem mkSpoolerDefinition_wellformed
    {d desc p1 p2 : List Char} (mpj : Nat)
    (hd : d = "local".data ∨ d = "riak".data)
    (hcd : (',' : Char) ∉ d) (hcolond : (':' : Char) ∉ d)
    (hcdesc : (',' : Char) ∉ desc)
    (hp1 : (',' : Char) ∉ p1) (hp2 : (',' : Char) ∉ p2) :
    mkSpoolerDefinition (d ++ ':' :: desc ++ ',' :: p1 ++ ',' :: p2) mpj =
      { driver_type :=
          some (if d = "local".data then DriverType.Local else DriverType.Riak)
        spooler_description := desc
        paths_out_pipe := p1
        digests_in_pipe := p2
        max_pending_jobs := mpj
        valid_ := true } := by
  have hc0 : (',' : Char) ∉ d ++ ':' :: desc := by
    simp only [List.mem_append, List.mem_cons, not_or]
    exact ⟨hcd, by decide, hcdesc⟩
  have hsplit : splitString ',' (d ++ ':' :: desc ++ ',' :: p1 ++ ',' :: p2)
      = [d ++ ':' :: desc, p1, p2] := by
    have h1 : d ++ ':' :: desc ++ ',' :: p1 ++ ',' :: p2
        = (d ++ ':' :: desc) ++ ',' :: (p1 ++ ',' :: p2) := by
      simp [List.append_assoc]
    rw [h1, splitString_append hc0, splitString_append hp1,
      splitString_no_delim hp2]
  have hmax : splitStringMax ':' 2 (d ++ ':' :: desc) = [d, desc] :=
    splitStringMax_two hcolond
  unfold mkSpoolerDefinition
  rw [hsplit]
  simp only [hmax]
  rcases hd with hd | hd
  · rw [if_pos hd, if_pos hd]
  · have hne : ¬ d = "local".data := by
      rw [hd]
      decide
    rw [if_neg hne, if_pos hd, if_neg hne]

end Upload

namespace Upload

theorem inv_counts {M K : Nat} {s : SpoolerState} (inv : Inv M K s) :
    deathCount s.dequeuedHist
        = deathCount s.finishedHist + deathCount s.executing ∧
      deathCount s.enqueuedHist
        = deathCount s.dequeuedHist + deathCount s.jobQueue ∧
      deathCount s.enqueuedHist ≤ K := by
  obtain ⟨hM, hK, cap, fifo, conserve, pending, deaths, eot, torn, workers⟩ := inv
  refine ⟨?_, ?_, ?_⟩
  · rw [deathCount_perm conserve, deathCount_append]
  · rw [fifo, deathCount_append]
  · cases hrem : s.eotRemaining with
    | none =>
      simp only [hrem] at eot
      rcases htx : s.transactionEnds
      · simp [htx] at eot
        omega
      · simp [htx] at eot
        omega
    | some n =>
      simp only [hrem] at eot
      obtain ⟨-, -, h3⟩ := eot
      omega

/-- C1: For every reachable state of the Dispatcher under any interleaving
of producer submissions (Copy/Process/EndOfTransaction via Schedule) and
Worker dequeues (AcquireJob), the job queue's size satisfies
0 ≤ size ≤ maxPendingJobs, and Schedule never appends while
size ≥ maxPendingJobs (the producer blocks instead). -/
theorem claim1_queue_bounded (M K : Nat) (s : SpoolerState)
    (h : Reachable M K s) :
    (0 ≤ s.jobQueue.length ∧ s.jobQueue.length ≤ M) ∧
      ∀ j : Job, M ≤ s.jobQueue.length →
        schedule s j = OpResult.blocked := by
  have inv := reachable_inv h
  refine ⟨⟨Nat.zero_le _, inv.cap⟩, ?_⟩
  intro j hfull
  unfold schedule
  rw [if_pos (by rw [inv.hM]; exact hfull)]

theorem claim1_witness :
    ((0 ≤ (initState 3 2).jobQueue.length ∧
        (initState 3 2).jobQueue.length ≤ 3) ∧
      ∀ j : Job, 3 ≤ (initState 3 2).jobQueue.length →
        schedule (initState 3 2) j = OpResult.blocked) :=
  claim1_queue_bounded 3 2 (initState 3 2) Reachable.init

/-- C2: In every reachable state the dequeue history is exactly a prefix of
the enqueue history (strict FIFO: AcquireJob removes and returns jobs in
the order Schedule appended them); consequently, whenever a
DeathSentenceJob sits at position i of the dequeue history, every job
enqueued at an earlier position has already been dequeued, at that same
position. -/
theorem claim2_fifo_order (M K : Nat) (s : SpoolerState)
    (h : Reachable M K s) :
    s.enqueuedHist = s.dequeuedHist ++ s.jobQueue ∧
      (∀ i : Nat, i < s.dequeuedHist.length →
        s.enqueuedHist[i]? = s.dequeuedHist[i]?) ∧
      ∀ i : Nat, s.dequeuedHist[i]? = some Job.deathSentenceJob →
        ∀ k : Nat, k < i →
          ∃ jb : Job, s.enqueuedHist[k]? = some jb ∧
            s.dequeuedHist[k]? = some jb := by
  have inv := reachable_inv h
  have fifo := inv.fifo
  have hpref : ∀ i : Nat, i < s.dequeuedHist.length →
      s.enqueuedHist[i]? = s.dequeuedHist[i]? := by
    intro i hi
    rw [fifo, List.getElem?_append_left hi]
  refine ⟨fifo, hpref, ?_⟩
  intro i hi k hk
  have hilen : i < s.dequeuedHist.length := by
    obtain ⟨h1, -⟩ := List.getElem?_eq_some.mp hi
    exact h1
  have hklen : k < s.dequeuedHist.length := lt_trans hk hilen
  refine ⟨s.dequeuedHist[k], ?_, ?_⟩
  · rw [hpref k hklen]
    exact List.getElem?_eq_getElem hklen
  · exact List.getElem?_eq_getElem hklen

theorem claim2_witness :
    ((initState 2 1).enqueuedHist =
        (initState 2 1).dequeuedHist ++ (initState 2 1).jobQueue ∧
      (∀ i : Nat, i < (initState 2 1).dequeuedHist.length →
        (initState 2 1).enqueuedHist[i]? = (initState 2 1).dequeuedHist[i]?) ∧
      ∀ i : Nat,
        (initState 2 1).dequeuedHist[i]? = some Job.deathSentenceJob →
        ∀ k : Nat, k < i →
          ∃ jb : Job, (initState 2 1).enqueuedHist[k]? = some jb ∧
            (initState 2 1).dequeuedHist[k]? = some jb) :=
  claim2_fifo_order 2 1 (initState 2 1) Reachable.init

end Upload

namespace Upload

/-- C3: In every reachable state, once EndOfTransaction has completed
(transactionEnds) exactly K = workerCount DeathSentenceJobs have been
enqueued and never more than K in any state; deathSentencesExecuted counts
exactly the DeathSentenceJobs reported finished (each processed at most
once, and at most K in total); TearDown has run exactly when the K-th
death sentence was reported finished and never while fewer than K were;
and each death sentence consumed retires exactly one worker
(activeWorkers + deathSentencesExecuted = K). -/
theorem claim3_death_sentence_protocol (M K : Nat) (s : SpoolerState)
    (h : Reachable M K s) :
    (s.transactionEnds = true → deathCount s.enqueuedHist = K) ∧
      deathCount s.enqueuedHist ≤ K ∧
      s.deathSentencesExecuted = deathCount s.finishedHist ∧
      s.deathSentencesExecuted ≤ K ∧
      (s.tornDown = true ↔ (K ≠ 0 ∧ s.deathSentencesExecuted = K)) ∧
      s.activeWorkers + s.deathSentencesExecuted = K := by
  have inv := reachable_inv h
  obtain ⟨h1, h2, h3⟩ := inv_counts inv
  have hd := inv.deaths
  refine ⟨?_, h3, inv.deaths, by omega, inv.torn, inv.workers⟩
  intro htx
  have eot := inv.eot
  cases hrem : s.eotRemaining with
  | none =>
    simp only [hrem] at eot
    rw [htx] at eot
    simpa using eot
  | some n =>
    simp only [hrem] at eot
    obtain ⟨hf, -, -⟩ := eot
    rw [htx] at hf
    exact absurd hf (by simp)

theorem claim3_witness :
    (((initState 2 1).transactionEnds = true →
        deathCount (initState 2 1).enqueuedHist = 1) ∧
      deathCount (initState 2 1).enqueuedHist ≤ 1 ∧
      (initState 2 1).deathSentencesExecuted =
        deathCount (initState 2 1).finishedHist ∧
      (initState 2 1).deathSentencesExecuted ≤ 1 ∧
      ((initState 2 1).tornDown = true ↔
        (1 ≠ 0 ∧ (initState 2 1).deathSentencesExecuted = 1)) ∧
      (initState 2 1).activeWorkers +
        (initState 2 1).deathSentencesExecuted = 1) :=
  claim3_death_sentence_protocol 2 1 (initState 2 1) Reachable.init

/-- C4: In every reachable state, WaitForUpload returns (rather than
blocking) only when the pending counter is zero, and the pending counter
is zero exactly when every job that was submitted has been reported
finished. -/
theorem claim4_wait_for_upload (M K : Nat) (s : SpoolerState)
    (h : Reachable M K s) :
    (∀ s' : SpoolerState, waitForUpload s = OpResult.ok s' →
        s.jobsPending = 0) ∧
      (s.jobsPending = 0 ↔
        s.finishedHist.length = s.enqueuedHist.length) := by
  have inv := reachable_inv h
  have hpend := inv.pending
  have hlen : s.enqueuedHist.length
      = s.finishedHist.length + s.executing.length + s.jobQueue.length := by
    have h1 : s.enqueuedHist.length
        = s.dequeuedHist.length + s.jobQueue.length := by
      rw [inv.fifo, List.length_append]
    have h2 : s.dequeuedHist.length
        = s.finishedHist.length + s.executing.length := by
      have h3 := inv.conserve.length_eq
      simpa using h3
    omega
  constructor
  · intro s' hok
    unfold waitForUpload at hok
    split at hok
    · exact absurd hok (by simp)
    · rename_i hle
      omega
  · omega

theorem claim4_witness :
    ((∀ s' : SpoolerState,
        waitForUpload (initState 4 2) = OpResult.ok s' →
        (initState 4 2).jobsPending = 0) ∧
      ((initState 4 2).jobsPending = 0 ↔
        (initState 4 2).finishedHist.length =
          (initState 4 2).enqueuedHist.length)) :=
  claim4_wait_for_upload 4 2 (initState 4 2) Reachable.init

/-- C5: For every job handed to JobFinishedCallback, failedCount is
incremented by exactly one when the job was unsuccessful and left alone
otherwise; and when an external callback is registered, it is invoked with
(localPath, returnCode, contentDigest) for a CompressionJob, with
(localPath, returnCode) for a CopyJob, and not at all for a
DeathSentenceJob. -/
theorem claim5_callback_dispatch (s : SpoolerState) (job : Job)
    (o : JobOutcome) :
    ((jobFinishedCallback s job o).1.jobsFailed
        = s.jobsFailed + (if o.successful then 0 else 1)) ∧
      (s.callbackSet = true →
        (jobFinishedCallback s job o).2 =
          match job with
          | Job.compressionJob lp _ _ _ =>
            [CallbackCall.compression lp o.return_code o.content_hash]
          | Job.copyJob lp _ _ => [CallbackCall.copy lp o.return_code]
          | Job.deathSentenceJob => []) := by
  constructor
  · rw [jobFinishedCallback_fst]
  · intro hcb
    by_cases hsucc : o.successful <;>
      cases job <;>
        simp [jobFinishedCallback, invokeExternalCallback, hsucc, hcb]

theorem claim5_witness :
    ((jobFinishedCallback { initState 1 1 with callbackSet := true }
        (Job.copyJob "a" "b" false)
        { successful := false, return_code := 1, content_hash := "" }).1.jobsFailed
      = 1 ∧
      (jobFinishedCallback { initState 1 1 with callbackSet := true }
        (Job.copyJob "a" "b" false)
        { successful := false, return_code := 1, content_hash := "" }).2
      = [CallbackCall.copy "a" 1]) :=
  ⟨(claim5_callback_dispatch { initState 1 1 with callbackSet := true }
      (Job.copyJob "a" "b" false)
      { successful := false, return_code := 1, content_hash := "" }).1.trans
    (by decide),
   ((claim5_callback_dispatch { initState 1 1 with callbackSet := true }
      (Job.copyJob "a" "b" false)
      { successful := false, return_code := 1, content_hash := "" }).2
    rfl).trans rfl⟩

end Upload

namespace Upload

/-- C6: Every definition string of the form driver:description,outPipe,inPipe
with driver "local" or "riak" (and no stray top-level separators) parses to
valid = true with driverType, description and the two pipe fields matching
the input and maxPendingJobs taken from the caller-supplied argument; every
string whose top-level comma split does not give three components, whose
driver component does not colon-split into two parts, or whose driver name
is unrecognized parses to valid = false (the parser is a total function:
it never aborts). -/
theorem claim6_definition_parsing :
    (∀ (d desc p1 p2 : List Char) (mpj : Nat),
        (d = "local".data ∨ d = "riak".data) →
        (',' : Char) ∉ d → (':' : Char) ∉ d → (',' : Char) ∉ desc →
        (',' : Char) ∉ p1 → (',' : Char) ∉ p2 →
        mkSpoolerDefinition (d ++ ':' :: desc ++ ',' :: p1 ++ ',' :: p2) mpj =
          { driver_type := some (if d = "local".data then DriverType.Local
              else DriverType.Riak)
            spooler_description := desc
            paths_out_pipe := p1
            digests_in_pipe := p2
            max_pending_jobs := mpj
            valid_ := true }) ∧
    (∀ (ds : List Char) (mpj : Nat),
        (splitString ',' ds).length ≠ 3 →
        (mkSpoolerDefinition ds mpj).valid_ = false) ∧
    (∀ (ds c0 c1 c2 : List Char) (mpj : Nat),
        splitString ',' ds = [c0, c1, c2] →
        (splitStringMax ':' 2 c0).length ≠ 2 →
        (mkSpoolerDefinition ds mpj).valid_ = false) ∧
    (∀ (ds c0 c1 c2 u0 u1 : List Char) (mpj : Nat),
        splitString ',' ds = [c0, c1, c2] →
        splitStringMax ':' 2 c0 = [u0, u1] →
        u0 ≠ "local".data → u0 ≠ "riak".data →
        (mkSpoolerDefinition ds mpj).valid_ = false) := by
  refine ⟨?_, ?_, ?_, ?_⟩
  · intro d desc p1 p2 mpj hd hcd hcolond hcdesc hp1 hp2
    exact mkSpoolerDefinition_wellformed mpj hd hcd hcolond hcdesc hp1 hp2
  · intro ds mpj hcount
    unfold mkSpoolerDefinition
    rcases hsp : splitString ',' ds with _ | ⟨c0, _ | ⟨c1, _ | ⟨c2, _ | rest⟩⟩⟩ <;>
      simp_all
  · intro ds c0 c1 c2 mpj hsp hlen2
    unfold mkSpoolerDefinition
    rw [hsp]
    rcases hmax : splitStringMax ':' 2 c0 with _ | ⟨u0, _ | ⟨u1, _ | rest⟩⟩ <;>
      simp_all
  · intro ds c0 c1 c2 u0 u1 mpj hsp hmax hne1 hne2
    unfold mkSpoolerDefinition
    rw [hsp]
    simp only [hmax]
    rw [if_neg hne1, if_neg hne2]

theorem claim6_witness :
    (mkSpoolerDefinition
        ("local".data ++ ':' :: "/tmp/repo".data ++
          ',' :: "p1".data ++ ',' :: "p2".data) 5 =
      { driver_type := some (if "local".data = "local".data
          then DriverType.Local else DriverType.Riak)
        spooler_description := "/tmp/repo".data
        paths_out_pipe := "p1".data
        digests_in_pipe := "p2".data
        max_pending_jobs := 5
        valid_ := true }) ∧
      (mkSpoolerDefinition "bad".data 5).valid_ = false :=
  ⟨claim6_definition_parsing.1 "local".data "/tmp/repo".data
      "p1".data "p2".data 5 (Or.inl rfl) (by decide) (by decide)
      (by decide) (by decide) (by decide),
   claim6_definition_parsing.2.1 "bad".data 5 (by decide)⟩

/-- C10: Because the driver component is split on the colon with a chunk
limit of two, a definition string whose first comma-component contains
further colons after the driver name still parses as valid: the driver
name is the text before the first colon and the description is the whole
remainder of that component, colons included. -/
theorem claim10_colons_in_description
    (d mid tail p1 p2 : List Char) (mpj : Nat)
    (hd : d = "local".data ∨ d = "riak".data)
    (hcd : (',' : Char) ∉ d) (hcolond : (':' : Char) ∉ d)
    (hmid : (',' : Char) ∉ mid) (htail : (',' : Char) ∉ tail)
    (hp1 : (',' : Char) ∉ p1) (hp2 : (',' : Char) ∉ p2) :
    mkSpoolerDefinition
        (d ++ ':' :: (mid ++ ':' :: tail) ++ ',' :: p1 ++ ',' :: p2) mpj =
      { driver_type := some (if d = "local".data then DriverType.Local
          else DriverType.Riak)
        spooler_description := mid ++ ':' :: tail
        paths_out_pipe := p1
        digests_in_pipe := p2
        max_pending_jobs := mpj
        valid_ := true } := by
  refine mkSpoolerDefinition_wellformed mpj hd hcd hcolond ?_ hp1 hp2
  simp only [List.mem_append, List.mem_cons, not_or]
  exact ⟨hmid, by decide, htail⟩

theorem claim10_witness :
    mkSpoolerDefinition
        ("riak".data ++ ':' :: ("host".data ++ ':' :: "8098/bucket".data) ++
          ',' :: "p1".data ++ ',' :: "p2".data) 7 =
      { driver_type := some (if "riak".data = "local".data
          then DriverType.Local else DriverType.Riak)
        spooler_description := "host".data ++ ':' :: "8098/bucket".data
        paths_out_pipe := "p1".data
        digests_in_pipe := "p2".data
        max_pending_jobs := 7
        valid_ := true } :=
  claim10_colons_in_description "riak".data "host".data "8098/bucket".data
    "p1".data "p2".data 7 (Or.inr rfl) (by decide) (by decide) (by decide)
    (by decide) (by decide) (by decide)

end Upload

namespace Upload

/-- The intermediate state of `EndOfTransaction` on a freshly initialized
spooler with capacity 4 and one worker: the loop counter is armed. -/
def eotS1 : SpoolerState := { initState 4 1 with eotRemaining := some 1 }

/-- One death sentence has been scheduled; one loop iteration remains. -/
def eotS2 : SpoolerState :=
  { eotS1 with
    jobQueue := [Job.deathSentenceJob]
    jobsPending := 1
    enqueuedHist := [Job.deathSentenceJob]
    eotRemaining := some 0 }

/-- The state reached from `initState 4 1` by running `EndOfTransaction`
to completion: one death sentence queued, `transaction_ends_` set. -/
def postEotState : SpoolerState :=
  { eotS2 with transactionEnds := true, eotRemaining := none }

theorem postEotState_reachable : Reachable 4 1 postEotState :=
  Reachable.step
    (Reachable.step
      (Reachable.step Reachable.init
        (@Step.eotBegin (initState 4 1) eotS1 (by decide)))
      (@Step.eotStep eotS1 eotS2 (by decide)))
    (@Step.eotStep eotS2 postEotState (by decide))

/-- C7 counterexample: in the reachable state just after EndOfTransaction
has completed, a Copy call does not fail any assertion — it schedules the
job normally (upload.cc's Copy and Process contain no check of
`transaction_ends_`), contradicting the claim that such a call triggers an
assertion failure rather than scheduling the job. -/
theorem claim7_counterexample :
    Reachable 4 1 postEotState ∧
      postEotState.transactionEnds = true ∧
      copy postEotState "a" "b" ≠ OpResult.assertionFailed ∧
      copy postEotState "a" "b" = OpResult.ok
        { postEotState with
          jobQueue := [Job.deathSentenceJob, Job.copyJob "a" "b" false]
          jobsPending := 2
          enqueuedHist := [Job.deathSentenceJob, Job.copyJob "a" "b" false] } :=
  ⟨postEotState_reachable, rfl, by decide, by decide⟩

/-- C7 amended: Copy and Process perform no transaction-ended check at
all: in every state — in particular after EndOfTransaction — they never
trigger an assertion failure, and whenever the queue has room they
schedule the constructed job normally.  (Only EndOfTransaction itself
asserts `!transaction_ends_`.) -/
theorem claim7_amended (s : SpoolerState) (lp rp rd sfx : String) :
    copy s lp rp ≠ OpResult.assertionFailed ∧
      process s lp rd sfx ≠ OpResult.assertionFailed ∧
      (s.jobQueue.length < s.maxPendingJobs →
        copy s lp rp = OpResult.ok
          { s with
            jobQueue := s.jobQueue ++ [Job.copyJob lp rp s.move]
            jobsPending := s.jobsPending + 1
            enqueuedHist := s.enqueuedHist ++ [Job.copyJob lp rp s.move] } ∧
        process s lp rd sfx = OpResult.ok
          { s with
            jobQueue := s.jobQueue ++ [Job.compressionJob lp rd sfx s.move]
            jobsPending := s.jobsPending + 1
            enqueuedHist := s.enqueuedHist ++
              [Job.compressionJob lp rd sfx s.move] }) := by
  unfold copy process schedule
  refine ⟨?_, ?_, ?_⟩
  · split <;> simp
  · split <;> simp
  · intro hlt
    rw [if_neg (by omega), if_neg (by omega)]
    exact ⟨rfl, rfl⟩

theorem claim7_witness :
    postEotState.jobQueue.length < postEotState.maxPendingJobs ∧
      copy postEotState "x" "y" ≠ OpResult.assertionFailed ∧
      copy postEotState "x" "y" = OpResult.ok
        { postEotState with
          jobQueue := postEotState.jobQueue ++
            [Job.copyJob "x" "y" postEotState.move]
          jobsPending := postEotState.jobsPending + 1
          enqueuedHist := postEotState.enqueuedHist ++
            [Job.copyJob "x" "y" postEotState.move] } :=
  ⟨by decide, (claim7_amended postEotState "x" "y" "y" "z").1,
    ((claim7_amended postEotState "x" "y" "y" "z").2.2 (by decide)).1⟩

/-- C8 counterexample: on the invalid definition string "bad", Construct
does not return a null dispatcher: `assert(spooler_definition.IsValid())`
fails first and the process aborts, contradicting the claim that every
construction failure returns a null/absent dispatcher to the caller. -/
theorem claim8_counterexample :
    (mkSpoolerDefinition "bad".data 5).valid_ = false ∧
      Construct "bad".data 5 true = ConstructResult.assertionFailed ∧
      Construct "bad".data 5 true ≠ ConstructResult.null := by
  refine ⟨?_, ?_, ?_⟩ <;> decide

/-- C8 amended: when the definition string is invalid Construct aborts via
an assertion failure (no dispatcher — null or otherwise — is returned);
when the definition is valid but Initialize fails, Construct discards the
partially built object and returns null; a dispatcher is handed out only
when the definition is valid and Initialize succeeded. -/
theorem claim8_amended (ds : List Char) (mpj : Nat) (initializeOk : Bool) :
    ((mkSpoolerDefinition ds mpj).valid_ = false →
        Construct ds mpj initializeOk = ConstructResult.assertionFailed) ∧
      ((mkSpoolerDefinition ds mpj).valid_ = true → initializeOk = false →
        Construct ds mpj initializeOk = ConstructResult.null) ∧
      (∀ sd : SpoolerDefinition,
        Construct ds mpj initializeOk = ConstructResult.spooler sd →
        sd.valid_ = true ∧ initializeOk = true ∧
          sd = mkSpoolerDefinition ds mpj) := by
  refine ⟨?_, ?_, ?_⟩
  · intro hinv
    simp [Construct, SpoolerDefinition.IsValid, hinv]
  · intro hval hio
    simp [Construct, SpoolerDefinition.IsValid, hval, hio]
  · intro sd hcon
    by_cases hv : (mkSpoolerDefinition ds mpj).valid_ = false
    · simp [Construct, SpoolerDefinition.IsValid, hv] at hcon
    · have hv' : (mkSpoolerDefinition ds mpj).valid_ = true := by
        revert hv
        cases (mkSpoolerDefinition ds mpj).valid_ <;> simp
      cases hio : initializeOk with
      | false =>
        rw [hio] at hcon
        simp [Construct, SpoolerDefinition.IsValid, hv'] at hcon
      | true =>
        rw [hio] at hcon
        simp [Construct, SpoolerDefinition.IsValid, hv'] at hcon
        subst hcon
        exact ⟨hv', rfl, rfl⟩

theorem claim8_witness :
    (mkSpoolerDefinition "local:a,b,c".data 5).valid_ = true ∧
      Construct "local:a,b,c".data 5 false = ConstructResult.null :=
  ⟨by decide,
    (claim8_amended "local:a,b,c".data 5 false).2.1 (by decide) rfl⟩

/-- C9: On any spooler state in which `transaction_ends_` is already set,
a further EndOfTransaction call fails its assertion (and never returns
normally); likewise, on any state with a callback already registered, a
further SetCallback call fails its assertion (and never returns
normally). -/
theorem claim9_double_call_asserts (s : SpoolerState) :
    (s.transactionEnds = true →
        endOfTransactionBegin s = OpResult.assertionFailed ∧
        ∀ s' : SpoolerState, endOfTransactionBegin s ≠ OpResult.ok s') ∧
      (s.callbackSet = true →
        setCallback s = OpResult.assertionFailed ∧
        ∀ s' : SpoolerState, setCallback s ≠ OpResult.ok s') := by
  constructor
  · intro htx
    have h : endOfTransactionBegin s = OpResult.assertionFailed := by
      unfold endOfTransactionBegin
      rw [if_pos htx]
    refine ⟨h, fun s' hok => ?_⟩
    rw [h] at hok
    exact absurd hok (by simp)
  · intro hcb
    have h : setCallback s = OpResult.assertionFailed := by
      unfold setCallback
      rw [if_pos hcb]
    refine ⟨h, fun s' hok => ?_⟩
    rw [h] at hok
    exact absurd hok (by simp)

theorem claim9_witness :
    endOfTransactionBegin
        { initState 1 1 with transactionEnds := true, callbackSet := true }
      = OpResult.assertionFailed ∧
      setCallback
        { initState 1 1 with transactionEnds := true, callbackSet := true }
      = OpResult.assertionFailed :=
  ⟨((claim9_double_call_asserts
      { initState 1 1 with transactionEnds := true, callbackSet := true }).1
        rfl).1,
   ((claim9_double_call_asserts
      { initState 1 1 with transactionEnds := true, callbackSet := true }).2
        rfl).1⟩

end Upload
